import Mathlib

/-!
Variable-length integer writer (`lttoolbox::write`).

A shallow embedding of `src/write/write.cc`.

* A byte is a natural number below 256.
* A `std::uint64_t` is a natural number below `2 ^ 64`; the code only shifts
  right, compares and truncates to a byte, so no operation can wrap.
* A `char` buffer is a `List Nat`; `s[i] = b` is `List.set`.
* The output stream is the list of bytes written so far; `os.write(s, n)`
  appends the first `n` bytes of `s`, `os.put(c)` appends one byte.
-/

namespace lttoolbox

/-- Modelled from the spec: `Write<n>::maximum_x` is declared in `write.h`, which is
not among the sources. Section 4.1 gives the threshold of class `n` as the
largest value that fits in `7 * n` bits. -/
def maximum_x (n : Nat) : Nat := 2 ^ (7 * n) - 1

/-- Modelled from the spec: `Write<n>::maximum_s_index` is declared in `write.h`,
which is not among the sources. The buffer of class `n` is `char s[n]`, whose
last index is `n - 1`. -/
def maximum_s_index (n : Nat) : Nat := n - 1

/-- Modelled from the spec: `Write<n>::mask` is declared in `write.h`, which is not
among the sources. Section 4.2 lists the prefix patterns of the classes 1 to 8 and
section 4.4 the all-ones marker of class 9. -/
def mask : Nat → Nat
  | 2 => 0x80
  | 3 => 0xc0
  | 4 => 0xe0
  | 5 => 0xf0
  | 6 => 0xf8
  | 7 => 0xfc
  | 8 => 0xfe
  | 9 => 0xff
  | _ => 0x00

/-- The loop of `copy_least_significant_bytes(char *s, std::size_t maximum_s_index,
std::uint64_t x)`: store the low byte of `x` at `s[maximum_s_index]`, stop when the
index is zero, otherwise shift `x` right by eight bits and decrement the index. -/
def copy_least_significant_bytes (s : List Nat) : Nat → Nat → List Nat
  | 0, x => s.set 0 (x % 256)
  | maximum_s_index + 1, x =>
      copy_least_significant_bytes (s.set (maximum_s_index + 1) (x % 256))
        maximum_s_index (x >>> 8)

/-- The stream operation `os.write(s, n)`: append the first `n` bytes of `s`. -/
def ostream_write (os : List Nat) (s : List Nat) (n : Nat) : List Nat :=
  os ++ s.take n

/-- The stream operation `os.put(c)`, the argument converted to one byte. -/
def ostream_put (os : List Nat) (c : Nat) : List Nat :=
  os ++ [c % 256]

/-- The buffer `char s[n]` before anything is stored in it. Its content is
indeterminate in the source; every cell is overwritten before it is read
(`copy_least_significant_bytes_length_indep` below), so zeros stand for it. -/
def fresh_buffer (n : Nat) : List Nat := List.replicate n 0

/-- The body of `Write<9>::write`: no further dispatch; the eight bytes of `x` go to
`s + 1`, the marker to `*s`. -/
def Write9.write (os : List Nat) (x : Nat) : List Nat :=
  let s := fresh_buffer 9
  let s := s.take 1 ++ copy_least_significant_bytes (s.drop 1) 7 x
  let s := s.set 0 (mask 9)
  ostream_write os s 9

/-- The body of the primary template `Write<n>::write`, with `Write<n + 1>::write`
passed as `next`. The third argument of `copy_least_significant_bytes` is `n`, as
on line 37 of `write.cc`. -/
def Write.write (n : Nat) (next : List Nat → Nat → List Nat) (os : List Nat)
    (x : Nat) : List Nat :=
  if x > maximum_x n then next os x
  else
    let s := fresh_buffer n
    let s := copy_least_significant_bytes s (maximum_s_index n) n
    let s := s.set 0 (s.getD 0 0 ||| mask n)
    ostream_write os s n

/-- The instantiation `Write<8>::write`. -/
def Write8.write : List Nat → Nat → List Nat := Write.write 8 Write9.write

/-- The instantiation `Write<7>::write`. -/
def Write7.write : List Nat → Nat → List Nat := Write.write 7 Write8.write

/-- The instantiation `Write<6>::write`. -/
def Write6.write : List Nat → Nat → List Nat := Write.write 6 Write7.write

/-- The instantiation `Write<5>::write`. -/
def Write5.write : List Nat → Nat → List Nat := Write.write 5 Write6.write

/-- The instantiation `Write<4>::write`. -/
def Write4.write : List Nat → Nat → List Nat := Write.write 4 Write5.write

/-- The instantiation `Write<3>::write`. -/
def Write3.write : List Nat → Nat → List Nat := Write.write 3 Write4.write

/-- The instantiation `Write<2>::write`. -/
def Write2.write : List Nat → Nat → List Nat := Write.write 2 Write3.write

/-- The body of the specialisation `Write<1>::write`. -/
def Write1.write (os : List Nat) (x : Nat) : List Nat :=
  if x > maximum_x 1 then Write2.write os x
  else ostream_put os x

/-- The entry point `lttoolbox::write(os, x)`. -/
def write (os : List Nat) (x : Nat) : List Nat := Write1.write os x

/-- The bytes one call of `write` emits into an empty stream. -/
def emitted (x : Nat) : List Nat := write [] x

/-- Vocabulary of the claims, not part of the program: the number of consecutive
one-bits of `b` counted downwards from bit `k - 1`. -/
def leading_ones_below : Nat → Nat → Nat
  | 0, _ => 0
  | k + 1, b => if b.testBit k then 1 + leading_ones_below k b else 0

/-- Vocabulary of the claims, not part of the program: the number of leading
one-bits of a byte. -/
def leading_ones (b : Nat) : Nat := leading_ones_below 8 b

/-- Follows the spec's words (section 4.1), not the program: the number of times `x`
can be halved before it is zero, within `fuel` steps. -/
def bit_length_loop : Nat → Nat → Nat
  | 0, _ => 0
  | fuel + 1, x => if x = 0 then 0 else bit_length_loop fuel (x / 2) + 1

/-- Follows the spec's words (section 4.1), not the program: the bit length of `x`,
one more than the position of its highest set bit, and 0 for `x = 0`. -/
def bit_length (x : Nat) : Nat := bit_length_loop x x

/-- Follows the spec's words (section 4.1), not the program: the length class picked
directly from the bit length `b` of `x`: 1 if `b ≤ 7`, the ceiling of `b / 7` if
`7 < b ≤ 56`, and 9 if `b > 56`. -/
def class_by_highest_bit (x : Nat) : Nat :=
  let b := bit_length x
  if b ≤ 7 then 1 else if b ≤ 56 then (b + 6) / 7 else 9

/-! ## Lemmas about the embedding -/

theorem Write.write_dispatch (n : Nat) (next : List Nat → Nat → List Nat) (os : List Nat) (x : Nat)
    (h : x > maximum_x n) : Write.write n next os x = next os x := by
  unfold Write.write
  rw [if_pos h]

theorem Write.write_store (n : Nat) (next : List Nat → Nat → List Nat) (os : List Nat) (x : Nat)
    (h : x ≤ maximum_x n) :
    Write.write n next os x =
      ostream_write os
        ((copy_least_significant_bytes (fresh_buffer n) (maximum_s_index n) n).set 0
          ((copy_least_significant_bytes (fresh_buffer n) (maximum_s_index n) n).getD 0 0
            ||| mask n)) n := by
  unfold Write.write
  rw [if_neg (Nat.not_lt.mpr h)]

theorem emitted_class_one (x : Nat) (h : x ≤ 0x7f) : emitted x = [x] := by
  have h1 : ¬ x > maximum_x 1 := by
    have : maximum_x 1 = 127 := by decide
    omega
  have h2 : x % 256 = x := Nat.mod_eq_of_lt (by omega)
  simp [emitted, write, Write1.write, h1, ostream_put, h2]

theorem maximum_x_values :
    maximum_x 1 = 0x7f ∧ maximum_x 2 = 0x3fff ∧ maximum_x 3 = 0x1fffff ∧
    maximum_x 4 = 0xfffffff ∧ maximum_x 5 = 0x7ffffffff ∧ maximum_x 6 = 0x3ffffffffff ∧
    maximum_x 7 = 0x1ffffffffffff ∧ maximum_x 8 = 0xffffffffffffff := by
  decide

theorem Write1.write_first_dispatch (os : List Nat) (x : Nat) (h : x > maximum_x 1) :
    Write1.write os x = Write2.write os x := by
  unfold Write1.write
  rw [if_pos h]

theorem write_class (n : Nat) (os : List Nat) (x : Nat) (h2 : 2 ≤ n) (h8 : n ≤ 8)
    (hlo : maximum_x (n - 1) < x) (hhi : x ≤ maximum_x n) :
    write os x = os ++ mask n :: (List.replicate (n - 2) 0 ++ [n]) := by
  obtain ⟨m1, m2, m3, m4, m5, m6, m7, m8⟩ := maximum_x_values
  interval_cases n <;> simp only [Nat.reduceSub] at hlo
  · rw [write, Write1.write_first_dispatch _ _ (by omega),
      Write2.write, Write.write_store 2 _ _ _ hhi]
    rfl
  · rw [write, Write1.write_first_dispatch _ _ (by omega),
      Write2.write, Write.write_dispatch 2 _ _ _ (by omega),
      Write3.write, Write.write_store 3 _ _ _ hhi]
    rfl
  · rw [write, Write1.write_first_dispatch _ _ (by omega),
      Write2.write, Write.write_dispatch 2 _ _ _ (by omega),
      Write3.write, Write.write_dispatch 3 _ _ _ (by omega),
      Write4.write, Write.write_store 4 _ _ _ hhi]
    rfl
  · rw [write, Write1.write_first_dispatch _ _ (by omega),
      Write2.write, Write.write_dispatch 2 _ _ _ (by omega),
      Write3.write, Write.write_dispatch 3 _ _ _ (by omega),
      Write4.write, Write.write_dispatch 4 _ _ _ (by omega),
      Write5.write, Write.write_store 5 _ _ _ hhi]
    rfl
  · rw [write, Write1.write_first_dispatch _ _ (by omega),
      Write2.write, Write.write_dispatch 2 _ _ _ (by omega),
      Write3.write, Write.write_dispatch 3 _ _ _ (by omega),
      Write4.write, Write.write_dispatch 4 _ _ _ (by omega),
      Write5.write, Write.write_dispatch 5 _ _ _ (by omega),
      Write6.write, Write.write_store 6 _ _ _ hhi]
    rfl
  · rw [write, Write1.write_first_dispatch _ _ (by omega),
      Write2.write, Write.write_dispatch 2 _ _ _ (by omega),
      Write3.write, Write.write_dispatch 3 _ _ _ (by omega),
      Write4.write, Write.write_dispatch 4 _ _ _ (by omega),
      Write5.write, Write.write_dispatch 5 _ _ _ (by omega),
      Write6.write, Write.write_dispatch 6 _ _ _ (by omega),
      Write7.write, Write.write_store 7 _ _ _ hhi]
    rfl
  · rw [write, Write1.write_first_dispatch _ _ (by omega),
      Write2.write, Write.write_dispatch 2 _ _ _ (by omega),
      Write3.write, Write.write_dispatch 3 _ _ _ (by omega),
      Write4.write, Write.write_dispatch 4 _ _ _ (by omega),
      Write5.write, Write.write_dispatch 5 _ _ _ (by omega),
      Write6.write, Write.write_dispatch 6 _ _ _ (by omega),
      Write7.write, Write.write_dispatch 7 _ _ _ (by omega),
      Write8.write, Write.write_store 8 _ _ _ hhi]
    rfl

theorem emitted_class (n x : Nat) (h2 : 2 ≤ n) (h8 : n ≤ 8)
    (hlo : maximum_x (n - 1) < x) (hhi : x ≤ maximum_x n) :
    emitted x = mask n :: (List.replicate (n - 2) 0 ++ [n]) := by
  unfold emitted
  rw [write_class n [] x h2 h8 hlo hhi]
  rfl

theorem write_class_nine (os : List Nat) (x : Nat) (h : maximum_x 8 < x) :
    write os x = os ++ [0xff, (x >>> 56) % 256, (x >>> 48) % 256, (x >>> 40) % 256,
      (x >>> 32) % 256, (x >>> 24) % 256, (x >>> 16) % 256, (x >>> 8) % 256, x % 256] := by
  obtain ⟨m1, m2, m3, m4, m5, m6, m7, m8⟩ := maximum_x_values
  rw [write, Write1.write_first_dispatch _ _ (by omega),
      Write2.write, Write.write_dispatch 2 _ _ _ (by omega),
      Write3.write, Write.write_dispatch 3 _ _ _ (by omega),
      Write4.write, Write.write_dispatch 4 _ _ _ (by omega),
      Write5.write, Write.write_dispatch 5 _ _ _ (by omega),
      Write6.write, Write.write_dispatch 6 _ _ _ (by omega),
      Write7.write, Write.write_dispatch 7 _ _ _ (by omega),
      Write8.write, Write.write_dispatch 8 _ _ _ (by omega)]
  simp [Write9.write, fresh_buffer, copy_least_significant_bytes, ostream_write, mask]
  simp only [← Nat.shiftRight_add, Nat.reduceAdd, and_self]

theorem emitted_class_nine (x : Nat) (h : maximum_x 8 < x) :
    emitted x = [0xff, (x >>> 56) % 256, (x >>> 48) % 256, (x >>> 40) % 256,
      (x >>> 32) % 256, (x >>> 24) % 256, (x >>> 16) % 256, (x >>> 8) % 256, x % 256] := by
  unfold emitted
  rw [write_class_nine [] x h]
  rfl

theorem maximum_x_succ_lt (n : Nat) : maximum_x n + 1 = 2 ^ (7 * n) := by
  unfold maximum_x
  have := Nat.two_pow_pos (7 * n)
  omega

/-- Every input falls in exactly one of the nine classes, and the class fixes the
shape of the emitted bytes. -/
theorem emitted_cases (x : Nat) :
    (x ≤ maximum_x 1 ∧ emitted x = [x]) ∨
    (∃ n, 2 ≤ n ∧ n ≤ 8 ∧ maximum_x (n - 1) < x ∧ x ≤ maximum_x n ∧
      emitted x = mask n :: (List.replicate (n - 2) 0 ++ [n])) ∨
    (maximum_x 8 < x ∧
      emitted x = [0xff, (x >>> 56) % 256, (x >>> 48) % 256, (x >>> 40) % 256,
        (x >>> 32) % 256, (x >>> 24) % 256, (x >>> 16) % 256, (x >>> 8) % 256, x % 256]) := by
  obtain ⟨m1, m2, m3, m4, m5, m6, m7, m8⟩ := maximum_x_values
  by_cases c1 : x ≤ maximum_x 1
  · exact Or.inl ⟨c1, emitted_class_one x (by omega)⟩
  by_cases c9 : maximum_x 8 < x
  · exact Or.inr (Or.inr ⟨c9, emitted_class_nine x c9⟩)
  refine Or.inr (Or.inl ?_)
  by_cases c2 : x ≤ maximum_x 2
  · exact ⟨2, by omega, by omega, by simp only [Nat.reduceSub]; omega, c2,
      emitted_class 2 x (by omega) (by omega) (by simp only [Nat.reduceSub]; omega) c2⟩
  by_cases c3 : x ≤ maximum_x 3
  · exact ⟨3, by omega, by omega, by simp only [Nat.reduceSub]; omega, c3,
      emitted_class 3 x (by omega) (by omega) (by simp only [Nat.reduceSub]; omega) c3⟩
  by_cases c4 : x ≤ maximum_x 4
  · exact ⟨4, by omega, by omega, by simp only [Nat.reduceSub]; omega, c4,
      emitted_class 4 x (by omega) (by omega) (by simp only [Nat.reduceSub]; omega) c4⟩
  by_cases c5 : x ≤ maximum_x 5
  · exact ⟨5, by omega, by omega, by simp only [Nat.reduceSub]; omega, c5,
      emitted_class 5 x (by omega) (by omega) (by simp only [Nat.reduceSub]; omega) c5⟩
  by_cases c6 : x ≤ maximum_x 6
  · exact ⟨6, by omega, by omega, by simp only [Nat.reduceSub]; omega, c6,
      emitted_class 6 x (by omega) (by omega) (by simp only [Nat.reduceSub]; omega) c6⟩
  by_cases c7 : x ≤ maximum_x 7
  · exact ⟨7, by omega, by omega, by simp only [Nat.reduceSub]; omega, c7,
      emitted_class 7 x (by omega) (by omega) (by simp only [Nat.reduceSub]; omega) c7⟩
  · exact ⟨8, by omega, by omega, by simp only [Nat.reduceSub]; omega, by omega,
      emitted_class 8 x (by omega) (by omega) (by simp only [Nat.reduceSub]; omega) (by omega)⟩

/-- The number of bytes emitted for an input of class `n`, for `n` from 1 to 8. -/
theorem emitted_length_class (n x : Nat) (h1 : 1 ≤ n) (h8 : n ≤ 8)
    (hlo : n = 1 ∨ maximum_x (n - 1) < x) (hhi : x ≤ maximum_x n) :
    (emitted x).length = n := by
  obtain ⟨m1, m2, m3, m4, m5, m6, m7, m8⟩ := maximum_x_values
  by_cases hn : n = 1
  · subst hn
    rw [emitted_class_one x (by omega)]
    rfl
  · have hlo2 : maximum_x (n - 1) < x := by
      rcases hlo with h | h
      · exact absurd h hn
      · exact h
    rw [emitted_class n x (by omega) h8 hlo2 hhi]
    simp only [List.length_cons, List.length_append, List.length_replicate, List.length_nil]
    omega

/-- The number of bytes emitted for an input above the threshold of class 8. -/
theorem emitted_length_class_nine (x : Nat) (h : maximum_x 8 < x) :
    (emitted x).length = 9 := by
  rw [emitted_class_nine x h]
  rfl

/-- Closed form of the loop: the cells `0 .. m` receive the low `m + 1` bytes of `x`,
most significant first, and the cells after `m` keep their content. -/
theorem copy_least_significant_bytes_eq (m : Nat) :
    ∀ (s : List Nat) (x : Nat), m < s.length →
      copy_least_significant_bytes s m x =
        (List.range (m + 1)).map (fun i => (x >>> (8 * (m - i))) % 256) ++ s.drop (m + 1) := by
  induction m with
  | zero =>
    intro s x hs
    cases s with
    | nil => simp at hs
    | cons a t => simp [copy_least_significant_bytes]
  | succ m ih =>
    intro s x hs
    have hlen : m < (s.set (m + 1) (x % 256)).length := by
      rw [List.length_set]
      omega
    rw [copy_least_significant_bytes, ih _ _ hlen, List.range_succ (m + 1), List.map_append,
      List.append_assoc]
    congr 1
    · apply List.map_congr_left
      intro i hi
      have hi2 : i < m + 1 := List.mem_range.mp hi
      have e : 8 * (m + 1 - i) = 8 + 8 * (m - i) := by omega
      rw [e, Nat.shiftRight_add]
    · have hd : List.drop (m + 1) (s.set (m + 1) (x % 256)) =
          (x % 256) :: List.drop (m + 2) s := by
        rw [List.drop_set, if_neg (by omega), Nat.sub_self, List.drop_eq_getElem_cons hs,
          List.set_cons_zero]
      rw [hd]
      simp

/-- The loop overwrites every cell of a buffer of `m + 1` cells: the result does not
depend on what the buffer held before. -/
theorem copy_least_significant_bytes_length_indep (m x : Nat) (s t : List Nat)
    (hs : s.length = m + 1) (ht : t.length = m + 1) :
    copy_least_significant_bytes s m x = copy_least_significant_bytes t m x := by
  rw [copy_least_significant_bytes_eq m s x (by omega),
    copy_least_significant_bytes_eq m t x (by omega),
    List.drop_of_length_le (by omega), List.drop_of_length_le (by omega)]

/-- The first emitted byte alone gives the number of emitted bytes. -/
theorem emitted_length_leading_ones (x : Nat) :
    ∃ b rest, emitted x = b :: rest ∧ (emitted x).length = 1 + leading_ones b := by
  obtain ⟨m1, m2, m3, m4, m5, m6, m7, m8⟩ := maximum_x_values
  rcases emitted_cases x with ⟨h1, e⟩ | ⟨n, h2, h8, _, _, e⟩ | ⟨_, e⟩
  · refine ⟨x, [], e, ?_⟩
    have hb : x.testBit 7 = false := Nat.testBit_lt_two_pow (by omega)
    rw [e]
    simp [leading_ones, leading_ones_below, hb]
  · refine ⟨mask n, List.replicate (n - 2) 0 ++ [n], e, ?_⟩
    rw [e]
    interval_cases n <;> decide
  · refine ⟨0xff, _, e, ?_⟩
    rw [e]
    simp only [List.length_cons, List.length_nil]
    decide

theorem bit_length_loop_le (fuel : Nat) :
    ∀ (x k : Nat), x ≤ fuel → (bit_length_loop fuel x ≤ k ↔ x < 2 ^ k) := by
  induction fuel with
  | zero =>
    intro x k hx
    have h0 : x = 0 := by omega
    subst h0
    simp [bit_length_loop]
  | succ f ih =>
    intro x k hx
    unfold bit_length_loop
    by_cases h : x = 0
    · subst h
      simp
    · rw [if_neg h]
      cases k with
      | zero =>
        simp only [Nat.pow_zero]
        omega
      | succ k =>
        have hf : x / 2 ≤ f := by omega
        rw [Nat.add_le_add_iff_right, ih (x / 2) k hf, Nat.pow_succ]
        omega

/-- The bit length of `x` is at most `k` exactly when `x` fits in `k` bits. -/
theorem bit_length_le (x k : Nat) : bit_length x ≤ k ↔ x < 2 ^ k :=
  bit_length_loop_le x x k (Nat.le_refl x)

/-- The bit length agrees with the library's `Nat.size`. -/
theorem bit_length_eq_size (x : Nat) : bit_length x = Nat.size x := by
  apply Nat.le_antisymm
  · rw [bit_length_le]
    exact Nat.lt_size_self x
  · rw [Nat.size_le, ← bit_length_le]

/-- The class picked from the highest set bit, for an input that the cascade stops
at class `n`, for `n` from 1 to 8. -/
theorem class_by_highest_bit_class (n x : Nat) (h1 : 1 ≤ n) (h8 : n ≤ 8)
    (hlo : n = 1 ∨ maximum_x (n - 1) < x) (hhi : x ≤ maximum_x n) :
    class_by_highest_bit x = n := by
  have hup : bit_length x ≤ 7 * n := by
    rw [bit_length_le]
    have := maximum_x_succ_lt n
    omega
  unfold class_by_highest_bit
  by_cases hn : n = 1
  · subst hn
    simp only [Nat.mul_one] at hup
    simp only [if_pos hup]
  · have hlo2 : maximum_x (n - 1) < x := by
      rcases hlo with h | h
      · exact absurd h hn
      · exact h
    have hdown : ¬ bit_length x ≤ 7 * (n - 1) := by
      rw [bit_length_le]
      have := maximum_x_succ_lt (n - 1)
      omega
    have h7 : ¬ bit_length x ≤ 7 := by omega
    have h56 : bit_length x ≤ 56 := by omega
    simp only [if_neg h7, if_pos h56]
    omega

/-- The class picked from the highest set bit, for an input above the threshold of
class 8. -/
theorem class_by_highest_bit_class_nine (x : Nat) (h : maximum_x 8 < x) :
    class_by_highest_bit x = 9 := by
  have hdown : ¬ bit_length x ≤ 7 * 8 := by
    rw [bit_length_le]
    have := maximum_x_succ_lt 8
    omega
  unfold class_by_highest_bit
  have h7 : ¬ bit_length x ≤ 7 := by omega
  have h56 : ¬ bit_length x ≤ 56 := by omega
  simp only [if_neg h7, if_neg h56]

theorem write_class_one (os : List Nat) (x : Nat) (h : x ≤ maximum_x 1) :
    write os x = os ++ [x] := by
  have m1 := maximum_x_values.1
  have h2 : x % 256 = x := Nat.mod_eq_of_lt (by omega)
  unfold write Write1.write
  rw [if_neg (Nat.not_lt.mpr h), ostream_put, h2]

/-- Writing to a stream that holds `os` appends to `os` the bytes that are written to
an empty stream. -/
theorem write_eq_append_emitted (os : List Nat) (x : Nat) :
    write os x = os ++ emitted x := by
  rcases emitted_cases x with ⟨h1, e⟩ | ⟨n, h2, h8, hlo, hhi, e⟩ | ⟨h9, e⟩
  · rw [e, write_class_one os x h1]
  · rw [e, write_class n os x h2 h8 hlo hhi]
  · rw [e, write_class_nine os x h9]

/-- Between one and nine bytes are emitted. -/
theorem emitted_length_bounds (x : Nat) :
    1 ≤ (emitted x).length ∧ (emitted x).length ≤ 9 := by
  rcases emitted_cases x with ⟨_, e⟩ | ⟨n, h2, h8, _, _, e⟩ | ⟨_, e⟩
  all_goals
    rw [e]
    simp only [List.length_cons, List.length_append, List.length_replicate, List.length_nil]
    omega

/-- No encoding is a proper beginning of another one. -/
theorem emitted_append_eq (x y : Nat) (t : List Nat) (h : emitted y = emitted x ++ t) :
    emitted x = emitted y := by
  obtain ⟨b, r, e, hl⟩ := emitted_length_leading_ones x
  obtain ⟨c, u, f, hm⟩ := emitted_length_leading_ones y
  have hbc : c = b := by
    have h2 := h
    rw [e, f] at h2
    simp only [List.cons_append, List.cons.injEq] at h2
    exact h2.1
  have hlen : (emitted y).length = (emitted x).length := by rw [hl, hm, hbc]
  have ht : t = [] := by
    have h3 := congrArg List.length h
    rw [List.length_append, hlen] at h3
    exact List.length_eq_zero.mp (by omega)
  rw [h, ht, List.append_nil]

/-- A concatenation of encodings determines the encodings it is made of. -/
theorem emitted_flatten_inj (xs : List Nat) :
    ∀ ys : List Nat, (xs.map emitted).flatten = (ys.map emitted).flatten →
      xs.map emitted = ys.map emitted := by
  induction xs with
  | nil =>
    intro ys h
    cases ys with
    | nil => rfl
    | cons b ys =>
      have hb := (emitted_length_bounds b).1
      have h2 := congrArg List.length h
      simp only [List.map_nil, List.flatten_nil, List.length_nil, List.map_cons,
        List.flatten_cons, List.length_append] at h2
      omega
  | cons a xs ih =>
    intro ys h
    cases ys with
    | nil =>
      have ha := (emitted_length_bounds a).1
      have h2 := congrArg List.length h
      simp only [List.map_nil, List.flatten_nil, List.length_nil, List.map_cons,
        List.flatten_cons, List.length_append] at h2
      omega
    | cons b ys =>
      simp only [List.map_cons, List.flatten_cons] at h
      have hab : emitted a = emitted b := by
        rcases List.append_eq_append_iff.mp h with ⟨t, h1, _⟩ | ⟨t, h1, _⟩
        · exact emitted_append_eq a b t h1
        · exact (emitted_append_eq b a t h1).symm
      rw [hab] at h
      have hrest := List.append_cancel_left h
      simp only [List.map_cons, hab, ih ys hrest]

/-! ## The claims -/

/-- C1 (the code departs from the claim). The input `0x80` lies in length class 2, so
the claim asks for the single payload byte `(0x80 >> 0) & 0xff = 0x80`; the program
emits `80 02`, whose payload byte is the class number. -/
theorem payload_0x80_is_class_number :
    2 ^ (7 * (2 - 1)) ≤ 0x80 ∧ 0x80 < 2 ^ (7 * 2) ∧ emitted 0x80 = [0x80, 0x02] ∧
      (emitted 0x80).drop 1 ≠ [(0x80 >>> (8 * 0)) &&& 0xff] := by
  decide

/-- C2 (the code departs from the claim). The input `0x2010` lies in length class 2,
so the claim asks for the first byte `0x80 | ((0x2010 >> 8) & 0x3f) = 0xa0`; the
program emits the first byte `0x80`, without the high data bits of the input. -/
theorem marker_0x2010_lacks_data_bits :
    2 ^ (7 * (2 - 1)) ≤ 0x2010 ∧ 0x2010 < 2 ^ (7 * 2) ∧ emitted 0x2010 = [0x80, 0x02] ∧
      0x80 ||| ((0x2010 >>> (8 * (2 - 1))) &&& ((1 <<< (8 - 2)) - 1)) = 0xa0 ∧
      (emitted 0x2010).head? ≠
        some (0x80 ||| ((0x2010 >>> (8 * (2 - 1))) &&& ((1 <<< (8 - 2)) - 1))) := by
  decide

/-- C3. For every 64-bit `x`, the number of bytes `write` emits is the smallest `n`
in 1..8 with `x < 2 ^ (7 * n)`, and it is 9 when no such `n` exists. -/
theorem write_length_smallest_class (x : Nat) (hx : x < 2 ^ 64) :
    (∀ n, 1 ≤ n → n ≤ 8 → x < 2 ^ (7 * n) →
        (∀ m, 1 ≤ m → m < n → ¬ x < 2 ^ (7 * m)) → (emitted x).length = n) ∧
    ((∀ n, 1 ≤ n → n ≤ 8 → ¬ x < 2 ^ (7 * n)) → (emitted x).length = 9) := by
  constructor
  · intro n h1 h8 hfit hmin
    apply emitted_length_class n x h1 h8
    · by_cases hn : n = 1
      · exact Or.inl hn
      · right
        have hm := hmin (n - 1) (by omega) (by omega)
        have := maximum_x_succ_lt (n - 1)
        omega
    · have := maximum_x_succ_lt n
      omega
  · intro hnone
    apply emitted_length_class_nine
    have h := hnone 8 (by omega) (by omega)
    have := maximum_x_succ_lt 8
    omega

/-- The length theorem at the inputs `0x4000` (class 3) and `2 ^ 56` (class 9). -/
theorem write_length_smallest_class_witness :
    0x4000 < 2 ^ 64 ∧ (emitted 0x4000).length = 3 ∧ (emitted (2 ^ 56)).length = 9 :=
  ⟨by decide,
    (write_length_smallest_class 0x4000 (by decide)).1 3 (by decide) (by decide) (by decide)
      (by intro m h1 h3; interval_cases m <;> decide),
    (write_length_smallest_class (2 ^ 56) (by decide)).2
      (by intro n h1 h8; interval_cases n <;> decide)⟩

/-- C4. For every 64-bit `x` above `2 ^ 56 - 1`, `write` emits exactly nine bytes:
`0xff`, then the bytes `(x >> (8 * k)) & 0xff` for `k` from 7 down to 0. -/
theorem write_escape_form (x : Nat) (hx : x < 2 ^ 64) (hbig : x > 2 ^ 56 - 1) :
    (emitted x).length = 9 ∧
      emitted x =
        0xff :: [7, 6, 5, 4, 3, 2, 1, 0].map (fun k => (x >>> (8 * k)) &&& 0xff) := by
  have h8 : maximum_x 8 < x := by
    have := maximum_x_values.2.2.2.2.2.2.2
    omega
  have hand : ∀ y : Nat, y &&& 0xff = y % 256 := fun y => Nat.and_pow_two_sub_one_eq_mod y 8
  refine ⟨emitted_length_class_nine x h8, ?_⟩
  rw [emitted_class_nine x h8]
  simp only [List.map_cons, List.map_nil, hand, Nat.reduceMul, Nat.shiftRight_zero]

/-- The escape form at the input `0x8040201008040201`. -/
theorem write_escape_form_witness :
    0x8040201008040201 < 2 ^ 64 ∧ 0x8040201008040201 > 2 ^ 56 - 1 ∧
      (emitted 0x8040201008040201).length = 9 ∧
      emitted 0x8040201008040201 =
        0xff :: [7, 6, 5, 4, 3, 2, 1, 0].map
          (fun k => (0x8040201008040201 >>> (8 * k)) &&& 0xff) :=
  ⟨by decide, by decide, write_escape_form 0x8040201008040201 (by decide) (by decide)⟩

/-- C5. For every `x` in `[0x00, 0x7f]`, `write` emits exactly one byte, and that byte
is `x`. -/
theorem write_single_byte (x : Nat) (hx : x ≤ 0x7f) :
    (emitted x).length = 1 ∧ emitted x = [x] := by
  rw [emitted_class_one x hx]
  exact ⟨rfl, rfl⟩

/-- The one-byte form at the input `0x40`. -/
theorem write_single_byte_witness :
    0x40 ≤ 0x7f ∧ (emitted 0x40).length = 1 ∧ emitted 0x40 = [0x40] :=
  ⟨by decide, write_single_byte 0x40 (by decide)⟩

/-- C6 (the code departs from the claim). The distinct 64-bit inputs `0x80` and
`0x81` are given the same byte sequence `80 02`, so the emitted bytes do not
determine the input and no decoder can recover it. -/
theorem emitted_0x80_0x81_collide :
    0x80 < 2 ^ 64 ∧ 0x81 < 2 ^ 64 ∧ 0x80 ≠ 0x81 ∧ emitted 0x80 = [0x80, 0x02] ∧
      emitted 0x81 = [0x80, 0x02] ∧ emitted 0x80 = emitted 0x81 := by
  decide

/-- C7 (the code departs from the claim). What the program emits for the ten listed
inputs: the vectors of `0x00`, `0x7f` and `0x0100000000000000` are produced as listed,
the seven vectors of the classes 2 to 8 are not (for instance `0x80` gives `80 02`,
not `80 80`). -/
theorem listed_vectors_evaluated :
    emitted 0x00 = [0x00] ∧ emitted 0x7f = [0x7f] ∧
    emitted 0x0100000000000000 = [0xff, 0x01, 0x00, 0x00, 0x00, 0x00, 0x00, 0x00, 0x00] ∧
    emitted 0x80 = [0x80, 0x02] ∧ emitted 0x80 ≠ [0x80, 0x80] ∧
    emitted 0x2010 = [0x80, 0x02] ∧ emitted 0x2010 ≠ [0xa0, 0x10] ∧
    emitted 0x3fff = [0x80, 0x02] ∧ emitted 0x3fff ≠ [0xbf, 0xff] ∧
    emitted 0x4000 = [0xc0, 0x00, 0x03] ∧ emitted 0x4000 ≠ [0xc0, 0x40, 0x00] ∧
    emitted 0x1fffff = [0xc0, 0x00, 0x03] ∧ emitted 0x1fffff ≠ [0xdf, 0xff, 0xff] ∧
    emitted 0x200000 = [0xe0, 0x00, 0x00, 0x04] ∧
    emitted 0x200000 ≠ [0xe0, 0x20, 0x00, 0x00] ∧
    emitted 0xffffffffffffff = [0xfe, 0x00, 0x00, 0x00, 0x00, 0x00, 0x00, 0x08] ∧
    emitted 0xffffffffffffff ≠ [0xfe, 0xff, 0xff, 0xff, 0xff, 0xff, 0xff, 0xff] := by
  decide

/-- C8. For every 64-bit `x` whose encoding has `n ≤ 8` bytes, the top `n` bits of the
first byte are `n - 1` one-bits (bits 7 down to `9 - n`) followed by a zero-bit (bit
`8 - n`); when the encoding has 9 bytes, the first byte is `0xff`. -/
theorem marker_prefix (x : Nat) (hx : x < 2 ^ 64) :
    ∃ b rest, emitted x = b :: rest ∧
      ((emitted x).length ≤ 8 →
        (∀ i, 8 - (emitted x).length < i → i < 8 → b.testBit i = true) ∧
          b.testBit (8 - (emitted x).length) = false) ∧
      ((emitted x).length = 9 → b = 0xff) := by
  obtain ⟨m1, m2, m3, m4, m5, m6, m7, m8⟩ := maximum_x_values
  rcases emitted_cases x with ⟨h1, e⟩ | ⟨n, h2, h8, _, _, e⟩ | ⟨_, e⟩
  · refine ⟨x, [], e, ?_, ?_⟩
    · rw [e]
      intro _
      refine ⟨?_, ?_⟩
      · intro i hlo hhi
        simp only [List.length_singleton] at hlo
        omega
      · simp only [List.length_singleton, Nat.reduceSub]
        exact Nat.testBit_lt_two_pow (by omega)
    · rw [e]
      intro h
      simp at h
  · refine ⟨mask n, List.replicate (n - 2) 0 ++ [n], e, ?_, ?_⟩
    · rw [e]
      intro _
      interval_cases n
      all_goals
        refine ⟨?_, by decide⟩
        intro i hlo hhi
        simp only [List.length_cons, List.length_append, List.length_replicate,
          List.length_nil, Nat.reduceSub, Nat.reduceAdd] at hlo
        interval_cases i <;> first | omega | decide
    · rw [e]
      intro h
      simp only [List.length_cons, List.length_append, List.length_replicate,
        List.length_nil] at h
      omega
  · refine ⟨0xff, _, e, ?_, ?_⟩
    · rw [e]
      intro h
      simp at h
    · intro _
      rfl

/-- The marker prefix at the input `0x200000` (class 4). -/
theorem marker_prefix_witness :
    0x200000 < 2 ^ 64 ∧
      ∃ b rest, emitted 0x200000 = b :: rest ∧
        ((emitted 0x200000).length ≤ 8 →
          (∀ i, 8 - (emitted 0x200000).length < i → i < 8 → b.testBit i = true) ∧
            b.testBit (8 - (emitted 0x200000).length) = false) ∧
        ((emitted 0x200000).length = 9 → b = 0xff) :=
  ⟨by decide, marker_prefix 0x200000 (by decide)⟩

/-- C9. For every 64-bit `x`, the number of emitted bytes is one more than the number
of leading one-bits of the first emitted byte; hence two inputs whose encodings
start with the same byte have encodings of the same length. -/
theorem write_self_delimiting (x y : Nat) (_hx : x < 2 ^ 64) (_hy : y < 2 ^ 64) :
    (∃ b rest, emitted x = b :: rest ∧ (emitted x).length = 1 + leading_ones b) ∧
      ((emitted x).head? = (emitted y).head? →
        (emitted x).length = (emitted y).length) := by
  refine ⟨emitted_length_leading_ones x, ?_⟩
  obtain ⟨b, r, e, hl⟩ := emitted_length_leading_ones x
  obtain ⟨c, t, f, hm⟩ := emitted_length_leading_ones y
  intro hh
  rw [e, f] at hh
  simp only [List.head?_cons, Option.some.injEq] at hh
  rw [hl, hm, hh]

/-- The inputs `0x4000` and `0x1fffff` share their first byte and their length. -/
theorem write_self_delimiting_witness :
    0x4000 < 2 ^ 64 ∧ 0x1fffff < 2 ^ 64 ∧
      (emitted 0x4000).head? = (emitted 0x1fffff).head? ∧
      (emitted 0x4000).length = (emitted 0x1fffff).length :=
  ⟨by decide, by decide, by decide,
    (write_self_delimiting 0x4000 0x1fffff (by decide) (by decide)).2 (by decide)⟩

/-- C10. For every `n` in 1..8, with `v = 2 ^ (7 * n) - 1`, `write` emits exactly `n`
bytes for `v` and exactly `n + 1` bytes for `v + 1`. -/
theorem write_boundary (n : Nat) (h1 : 1 ≤ n) (h8 : n ≤ 8) :
    (emitted (2 ^ (7 * n) - 1)).length = n ∧
      (emitted (2 ^ (7 * n) - 1 + 1)).length = n + 1 := by
  interval_cases n <;> decide

/-- The boundary between the classes 8 and 9. -/
theorem write_boundary_witness :
    1 ≤ 8 ∧ 8 ≤ 8 ∧ (emitted (2 ^ (7 * 8) - 1)).length = 8 ∧
      (emitted (2 ^ (7 * 8) - 1 + 1)).length = 8 + 1 :=
  ⟨by decide, by decide, write_boundary 8 (by decide) (by decide)⟩

/-- C11. For every 64-bit `x`, the class at which the cascade `Write<1>`, `Write<2>`,
... stops (it advances while `x > maximum_x`, and the stopping class writes as many
bytes as its number) equals the class computed from the bit length of `x`. -/
theorem selection_consistency (x : Nat) (_hx : x < 2 ^ 64) :
    (emitted x).length = class_by_highest_bit x ∧
    (∀ n, 1 ≤ n → n ≤ 8 → (∀ m, 1 ≤ m → m < n → x > maximum_x m) → x ≤ maximum_x n →
      class_by_highest_bit x = n) ∧
    ((∀ m, 1 ≤ m → m ≤ 8 → x > maximum_x m) → class_by_highest_bit x = 9) := by
  refine ⟨?_, ?_, ?_⟩
  · rcases emitted_cases x with ⟨h1, _⟩ | ⟨n, h2, h8, hlo, hhi, _⟩ | ⟨h9, _⟩
    · rw [emitted_length_class 1 x (by omega) (by omega) (Or.inl rfl) h1,
        class_by_highest_bit_class 1 x (by omega) (by omega) (Or.inl rfl) h1]
    · rw [emitted_length_class n x (by omega) h8 (Or.inr hlo) hhi,
        class_by_highest_bit_class n x (by omega) h8 (Or.inr hlo) hhi]
    · rw [emitted_length_class_nine x h9, class_by_highest_bit_class_nine x h9]
  · intro n h1 h8 hadv hstop
    apply class_by_highest_bit_class n x h1 h8 _ hstop
    by_cases hn : n = 1
    · exact Or.inl hn
    · exact Or.inr (hadv (n - 1) (by omega) (by omega))
  · intro hadv
    exact class_by_highest_bit_class_nine x (hadv 8 (by omega) (by omega))

/-- The selection at the input `0x4000`: bit length 15, class 3. -/
theorem selection_consistency_witness :
    0x4000 < 2 ^ 64 ∧ bit_length 0x4000 = 15 ∧
      (emitted 0x4000).length = class_by_highest_bit 0x4000 ∧
      class_by_highest_bit 0x4000 = 3 :=
  ⟨by decide, by decide, (selection_consistency 0x4000 (by decide)).1,
    (selection_consistency 0x4000 (by decide)).2.1 3 (by decide) (by decide)
      (by intro m h1 h3; interval_cases m <;> decide) (by decide)⟩

/-- C12. For every 64-bit `x` and every stream content, `write` returns (the chain of
instantiations ends at `Write<9>` and the copy loop counts its index down to zero,
so the embedding is a total function with no error value) and appends exactly one
byte sequence, of length between 1 and 9. -/
theorem write_total (os : List Nat) (x : Nat) (_hx : x < 2 ^ 64) :
    ∃! bytes, write os x = os ++ bytes ∧ 1 ≤ bytes.length ∧ bytes.length ≤ 9 := by
  refine ⟨emitted x, ⟨write_eq_append_emitted os x, emitted_length_bounds x⟩, ?_⟩
  intro b hb
  have e := hb.1
  rw [write_eq_append_emitted os x] at e
  exact (List.append_cancel_left e).symm

/-- The totality theorem at the input `0x4000` and the stream content `01 02`. -/
theorem write_total_witness :
    0x4000 < 2 ^ 64 ∧
      ∃! bytes, write [0x01, 0x02] 0x4000 = [0x01, 0x02] ++ bytes ∧
        1 ≤ bytes.length ∧ bytes.length ≤ 9 :=
  ⟨by decide, write_total [0x01, 0x02] 0x4000 (by decide)⟩

/-- C13. For every stream content `p` and every 64-bit `x`, the stream after
`write(os, x)` holds `p` followed by the encoding of `x`: the first `p.length` bytes
are `p`, and the bytes after them are the same for any other content `q`. -/
theorem write_append_only (p q : List Nat) (x : Nat) (_hx : x < 2 ^ 64) :
    write p x = p ++ emitted x ∧ (write p x).take p.length = p ∧
      (write p x).drop p.length = (write q x).drop q.length := by
  rw [write_eq_append_emitted p x, write_eq_append_emitted q x]
  refine ⟨rfl, ?_, ?_⟩
  · simp
  · simp

/-- The stream contents `01 02` and `ff` extended by the encoding of `0x8040201008040201`. -/
theorem write_append_only_witness :
    0x8040201008040201 < 2 ^ 64 ∧
      write [0x01, 0x02] 0x8040201008040201 = [0x01, 0x02] ++ emitted 0x8040201008040201 ∧
      (write [0x01, 0x02] 0x8040201008040201).take [0x01, 0x02].length = [0x01, 0x02] ∧
      (write [0x01, 0x02] 0x8040201008040201).drop [0x01, 0x02].length =
        (write [0xff] 0x8040201008040201).drop [0xff].length :=
  ⟨by decide, write_append_only [0x01, 0x02] [0xff] 0x8040201008040201 (by decide)⟩

/-- C14. For every buffer `s`, every index `m` with `m + 1 ≤ s.length` and every
64-bit `x`, `copy_least_significant_bytes(s, m, x)` returns a buffer of the same
length in which cell `i` holds `(x >> (8 * (m - i))) & 0xff` for every `i` in `0 .. m`
and every cell after `m` is unchanged. -/
theorem copy_least_significant_bytes_spec (s : List Nat) (m x : Nat)
    (hm : m + 1 ≤ s.length) (_hx : x < 2 ^ 64) :
    (copy_least_significant_bytes s m x).length = s.length ∧
    (∀ i, i ≤ m →
      (copy_least_significant_bytes s m x)[i]? = some ((x >>> (8 * (m - i))) &&& 0xff)) ∧
    (∀ j, m < j → (copy_least_significant_bytes s m x)[j]? = s[j]?) := by
  have hand : ∀ y : Nat, y &&& 0xff = y % 256 := fun y => Nat.and_pow_two_sub_one_eq_mod y 8
  rw [copy_least_significant_bytes_eq m s x (by omega)]
  refine ⟨?_, ?_, ?_⟩
  · simp only [List.length_append, List.length_map, List.length_range, List.length_drop]
    omega
  · intro i hi
    have hlt : i < ((List.range (m + 1)).map (fun i => (x >>> (8 * (m - i))) % 256)).length := by
      simp only [List.length_map, List.length_range]
      omega
    rw [List.getElem?_append_left hlt, List.getElem?_map,
      List.getElem?_range (by omega), hand]
    rfl
  · intro j hj
    have hge : ((List.range (m + 1)).map (fun i => (x >>> (8 * (m - i))) % 256)).length ≤ j := by
      simp only [List.length_map, List.length_range]
      omega
    rw [List.getElem?_append_right hge, List.getElem?_drop]
    simp only [List.length_map, List.length_range]
    congr 1
    omega

/-- The loop on the buffer `aa bb cc dd` with index 2 and the value `0x010203`. -/
theorem copy_least_significant_bytes_spec_witness :
    2 + 1 ≤ [0xaa, 0xbb, 0xcc, 0xdd].length ∧ 0x010203 < 2 ^ 64 ∧
      copy_least_significant_bytes [0xaa, 0xbb, 0xcc, 0xdd] 2 0x010203 =
        [0x01, 0x02, 0x03, 0xdd] ∧
      (copy_least_significant_bytes [0xaa, 0xbb, 0xcc, 0xdd] 2 0x010203)[0]? =
        some ((0x010203 >>> (8 * (2 - 0))) &&& 0xff) ∧
      (copy_least_significant_bytes [0xaa, 0xbb, 0xcc, 0xdd] 2 0x010203)[3]? =
        [0xaa, 0xbb, 0xcc, 0xdd][3]? :=
  ⟨by decide, by decide, by decide,
    (copy_least_significant_bytes_spec [0xaa, 0xbb, 0xcc, 0xdd] 2 0x010203
      (by decide) (by decide)).2.1 0 (by decide),
    (copy_least_significant_bytes_spec [0xaa, 0xbb, 0xcc, 0xdd] 2 0x010203
      (by decide) (by decide)).2.2 3 (by decide)⟩

/-- C15. For every `n` in 2..8 and every two 64-bit inputs `x` and `y` of length class
`n`, `write` emits the same bytes for `x` and for `y`: the marker of the class,
`n - 2` zero bytes and the byte `n`, which are the bytes of the class number that
line 37 hands to the copy loop. -/
theorem write_same_class_same_bytes (n x y : Nat) (h2 : 2 ≤ n) (h8 : n ≤ 8)
    (hxlo : 2 ^ (7 * (n - 1)) ≤ x) (hxhi : x < 2 ^ (7 * n))
    (hylo : 2 ^ (7 * (n - 1)) ≤ y) (hyhi : y < 2 ^ (7 * n)) :
    emitted x = emitted y ∧ emitted x = mask n :: (List.replicate (n - 2) 0 ++ [n]) := by
  have hn := maximum_x_succ_lt n
  have hp := maximum_x_succ_lt (n - 1)
  rw [emitted_class n x h2 h8 (by omega) (by omega),
    emitted_class n y h2 h8 (by omega) (by omega)]
  exact ⟨rfl, rfl⟩

/-- The inputs `0x4000` and `0x1fffff`, both of class 3, are written as `c0 00 03`. -/
theorem write_same_class_same_bytes_witness :
    2 ≤ 3 ∧ 3 ≤ 8 ∧ 2 ^ (7 * (3 - 1)) ≤ 0x4000 ∧ 0x4000 < 2 ^ (7 * 3) ∧
      2 ^ (7 * (3 - 1)) ≤ 0x1fffff ∧ 0x1fffff < 2 ^ (7 * 3) ∧
      emitted 0x4000 = emitted 0x1fffff ∧ emitted 0x4000 = [0xc0, 0x00, 0x03] :=
  ⟨by decide, by decide, by decide, by decide, by decide, by decide,
    write_same_class_same_bytes 3 0x4000 0x1fffff (by decide) (by decide) (by decide)
      (by decide) (by decide) (by decide)⟩

/-- C16. For all 64-bit `x` and `y`, if the bytes emitted for `x` are a beginning of
the bytes emitted for `y`, the two byte sequences are equal; hence two lists of
inputs whose encodings concatenate to the same bytes have the same encodings, one
by one. -/
theorem write_encodings_split_uniquely (x y : Nat) (xs ys : List Nat)
    (_hx : x < 2 ^ 64) (_hy : y < 2 ^ 64)
    (_hxs : ∀ a ∈ xs, a < 2 ^ 64) (_hys : ∀ a ∈ ys, a < 2 ^ 64) :
    ((∃ t, emitted y = emitted x ++ t) → emitted x = emitted y) ∧
    ((xs.map emitted).flatten = (ys.map emitted).flatten →
      xs.map emitted = ys.map emitted) := by
  refine ⟨?_, emitted_flatten_inj xs ys⟩
  rintro ⟨t, h⟩
  exact emitted_append_eq x y t h

/-- The encoding of `0x80` begins the encoding of `0x3fff`, and the streams of
`[0x80, 0x01]` and `[0x3fff, 0x01]` are the same bytes. -/
theorem write_encodings_split_uniquely_witness :
    0x80 < 2 ^ 64 ∧ 0x3fff < 2 ^ 64 ∧
      (∃ t, emitted 0x3fff = emitted 0x80 ++ t) ∧
      ([0x80, 0x01].map emitted).flatten = ([0x3fff, 0x01].map emitted).flatten ∧
      emitted 0x80 = emitted 0x3fff ∧
      [0x80, 0x01].map emitted = [0x3fff, 0x01].map emitted :=
  ⟨by decide, by decide, ⟨[], by decide⟩, by decide,
    (write_encodings_split_uniquely 0x80 0x3fff [0x80, 0x01] [0x3fff, 0x01] (by decide)
      (by decide) (by decide) (by decide)).1 ⟨[], by decide⟩,
    (write_encodings_split_uniquely 0x80 0x3fff [0x80, 0x01] [0x3fff, 0x01] (by decide)
      (by decide) (by decide) (by decide)).2 (by decide)⟩

end lttoolbox
